import Mathlib

/-!
Verification of the placeholder-substitution engine of
`make_agreem_dir_Gemini.py` (functions `_replace_in_paragraph`,
`_replace_in_block`, `replace_placeholders`).

Texts are modelled as `List Char`; a docx `Run` is a record of its text and
an opaque formatting payload.  The paragraph-level replacement
(`_replace_in_paragraph`) is translated by `replaceOnce` (one iteration of
the `while True` body: the `for key, value in placeholders.items()` loop)
together with `replaceLoop` (the `while True` loop, with explicit fuel,
since the Python loop does not terminate for every placeholder map).
The tree walker (`_replace_in_block` / `replace_placeholders`) is
translated by `replCont` / `replaceDoc` over an explicit tree of
containers, tables, rows and cells.
-/

namespace AgreemDir

/-- Paragraph text and placeholder keys/values, as character lists. -/
abbrev Text := List Char

/-- A docx `Run`: a fragment of text plus its (opaque) formatting payload.
The payload stands for everything of the run other than its text. -/
structure Run where
  text : Text
  fmt : Nat
deriving DecidableEq, Repr

/-- The placeholder map: an ordered association list of key/value pairs,
modelling the insertion-ordered Python `dict` `placeholders`. -/
abbrev TMap := List (Text × Text)

/-- `full_text = "".join(run.text for run in paragraph.runs)`. -/
def textOf (runs : List Run) : Text :=
  (runs.map Run.text).flatten

/-- Total length of the concatenated run texts. -/
def totalLen (runs : List Run) : Nat :=
  (textOf runs).length

/-- `full_text.find(key)`: index of the leftmost occurrence of `pat` in
`s`, `none` when there is no occurrence.  As in Python, the empty pattern
is found at index 0. -/
def strFind (s pat : Text) : Option Nat :=
  if pat.isPrefixOf s then some 0
  else
    match s with
    | [] => none
    | _ :: rest => (strFind rest pat).map (· + 1)

/-- `pat` occurs somewhere in `s` (i.e. `find` succeeds). -/
def containsSub (s pat : Text) : Bool :=
  (strFind s pat).isSome

/-- Number of (possibly overlapping) occurrences of `pat` in `s`; used to
state "the paragraph contains exactly one occurrence" side conditions. -/
def countOcc (s pat : Text) : Nat :=
  ((List.range (s.length + 1)).filter (fun i => pat.isPrefixOf (s.drop i))).length

/-- Offset of run `i` in the concatenation (the value of `current_pos`
when the scan of `_replace_in_paragraph` reaches run `i`). -/
def runPos (runs : List Run) (i : Nat) : Nat :=
  (textOf (runs.take i)).length

/-- The scan of lines 109-114 of the source: walk the runs keeping
`current_pos`, collecting the index of every run overlapping the
occurrence `[s, e)` (`start_index < current_pos + run_len and
current_pos < end_index`).  `idx` and `pos` are the index and offset of
the first run of `rs` within the whole paragraph. -/
def affectedGo (s e : Nat) : List Run → Nat → Nat → List Nat
  | [], _, _ => []
  | r :: rs, idx, pos =>
    if s < pos + r.text.length ∧ pos < e then
      idx :: affectedGo s e rs (idx + 1) (pos + r.text.length)
    else
      affectedGo s e rs (idx + 1) (pos + r.text.length)

/-- `runs_to_modify` as a list of run indices. -/
def affectedIdx (runs : List Run) (s e : Nat) : List Nat :=
  affectedGo s e runs 0 0

/-- Apply `f i r` to every run `r` at index `i`, the first run of the list
having index `n`; this is the write-back step of the rewrite. -/
def mapIdxFrom (f : Nat → Run → Run) : Nat → List Run → List Run
  | _, [] => []
  | n, r :: rs => f n r :: mapIdxFrom f (n + 1) rs

/-- The default run used to totalise index lookups (never reached at the
indices produced by `affectedIdx`). -/
def dflt : Run := ⟨[], 0⟩

/-- Lines 116-140 of the source: given the occurrence `[s, e)` of the key
in the concatenated text, rewrite the affected runs.  `first_run` gets
`prefix + value` (plus the suffix when it is also `last_run`), `last_run`
gets the suffix, every other affected run is emptied, and all other runs
are untouched.  When no run is affected (`if not runs_to_modify`) the
paragraph is returned unchanged (the caller skips this key). -/
def spliceRuns (runs : List Run) (s e : Nat) (v : Text) : List Run :=
  match affectedIdx runs s e with
  | [] => runs
  | first :: rest =>
    let last := rest.getLastD first
    let pre := (runs.getD first dflt).text.take (s - runPos runs first)
    let suf := (runs.getD last dflt).text.drop (e - runPos runs last)
    mapIdxFrom (fun j r =>
      if j = first then
        if first = last then { r with text := pre ++ v ++ suf }
        else { r with text := pre ++ v }
      else if j = last then { r with text := suf }
      else if j ∈ first :: rest then { r with text := [] }
      else r) 0 runs

/-- The `for key, value in placeholders.items()` loop of
`_replace_in_paragraph` (lines 102-143): try each key in map order against
the fixed concatenation `full`; on the first key that is found and whose
affected-run set is nonempty, rewrite and stop (`replaced = True; break`).
Returns `none` when the loop falls through with `replaced == False`. -/
def replaceOnceGo (runs : List Run) (full : Text) : TMap → Option (List Run)
  | [] => none
  | (k, v) :: ps =>
    match strFind full k with
    | none => replaceOnceGo runs full ps
    | some s =>
      if affectedIdx runs s (s + k.length) = [] then replaceOnceGo runs full ps
      else some (spliceRuns runs s (s + k.length) v)

/-- One iteration of the `while True` body of `_replace_in_paragraph`:
concatenate the run texts and run the key loop.  `some runs'` means a
replacement happened (`replaced == True`), `none` means none did. -/
def replaceOnce (runs : List Run) (ps : TMap) : Option (List Run) :=
  replaceOnceGo runs (textOf runs) ps

/-- The `while True` loop of `_replace_in_paragraph`, with explicit fuel:
repeat `replaceOnce` until it reports no replacement.  The Python loop has
no fuel; it diverges exactly when every fuel bound is exhausted before a
fixed point is reached. -/
def replaceLoop (fuel : Nat) (runs : List Run) (ps : TMap) : List Run :=
  match fuel with
  | 0 => runs
  | fuel + 1 =>
    match replaceOnce runs ps with
    | none => runs
    | some runs' => replaceLoop fuel runs' ps

/- A container (document body, table cell, header or footer): it owns
paragraphs (each a run list) and tables.  A table owns rows, a row owns
cells, and each cell is again a container. -/
mutual
inductive Container : Type where
  | mk (paras : List (List Run)) (tables : List Table)
deriving Repr
inductive Table : Type where
  | mk (rows : List Row)
deriving Repr
inductive Row : Type where
  | mk (cells : List Container)
deriving Repr
end

/-- A document section, with its header and footer containers. -/
structure Section' where
  header : Container
  footer : Container
deriving Repr

/-- A document: the body container plus the sections. -/
structure Document where
  body : Container
  sections : List Section'
deriving Repr

/- The function `_replace_in_block` (lines 148-154): run the paragraph loop
on every paragraph of the block, then recurse into every cell of every row
of every table.  `fuel` bounds every paragraph's `while True` loop. -/
mutual
def replCont (fuel : Nat) (ps : TMap) : Container → Container
  | .mk paras tables =>
    .mk (paras.map (fun p => replaceLoop fuel p ps)) (replTables fuel ps tables)
def replTables (fuel : Nat) (ps : TMap) : List Table → List Table
  | [] => []
  | t :: ts => replTable fuel ps t :: replTables fuel ps ts
def replTable (fuel : Nat) (ps : TMap) : Table → Table
  | .mk rows => .mk (replRows fuel ps rows)
def replRows (fuel : Nat) (ps : TMap) : List Row → List Row
  | [] => []
  | r :: rs => replRow fuel ps r :: replRows fuel ps rs
def replRow (fuel : Nat) (ps : TMap) : Row → Row
  | .mk cells => .mk (replCells fuel ps cells)
def replCells (fuel : Nat) (ps : TMap) : List Container → List Container
  | [] => []
  | c :: cs => replCont fuel ps c :: replCells fuel ps cs
end

/-- `replace_placeholders` (lines 156-160): process the document body,
then every section's header and footer. -/
def replaceDoc (fuel : Nat) (ps : TMap) (d : Document) : Document :=
  { body := replCont fuel ps d.body
    sections := d.sections.map (fun s =>
      { header := replCont fuel ps s.header, footer := replCont fuel ps s.footer }) }

/- All paragraphs reachable from a container, in traversal order:
its own paragraphs, then the paragraphs of the cells of its tables. -/
mutual
def contParas : Container → List (List Run)
  | .mk paras tables => paras ++ tablesParas tables
def tablesParas : List Table → List (List Run)
  | [] => []
  | t :: ts => tableParas t ++ tablesParas ts
def tableParas : Table → List (List Run)
  | .mk rows => rowsParas rows
def rowsParas : List Row → List (List Run)
  | [] => []
  | r :: rs => rowParas r ++ rowsParas rs
def rowParas : Row → List (List Run)
  | .mk cells => cellsParas cells
def cellsParas : List Container → List (List Run)
  | [] => []
  | c :: cs => contParas c ++ cellsParas cs
end

/-- All paragraphs reachable from the document root: the body's, then for
each section the header's and the footer's. -/
def docParas (d : Document) : List (List Run) :=
  contParas d.body ++
    (d.sections.map (fun s => contParas s.header ++ contParas s.footer)).flatten

/-- Erase every run text of a run list, keeping everything else; used to
state that the engine changes nothing but run texts. -/
def eraseRuns (runs : List Run) : List Run :=
  runs.map (fun r => { r with text := [] })

/- The text-free skeleton of a container: structure, fragment counts,
fragment order and formatting payloads, with every text blanked. -/
mutual
def skelCont : Container → Container
  | .mk paras tables => .mk (paras.map eraseRuns) (skelTables tables)
def skelTables : List Table → List Table
  | [] => []
  | t :: ts => skelTable t :: skelTables ts
def skelTable : Table → Table
  | .mk rows => .mk (skelRows rows)
def skelRows : List Row → List Row
  | [] => []
  | r :: rs => skelRow r :: skelRows rs
def skelRow : Row → Row
  | .mk cells => .mk (skelCells cells)
def skelCells : List Container → List Container
  | [] => []
  | c :: cs => skelCont c :: skelCells cs
end

/-- The text-free skeleton of a document. -/
def skelDoc (d : Document) : Document :=
  { body := skelCont d.body
    sections := d.sections.map (fun s =>
      { header := skelCont s.header, footer := skelCont s.footer }) }

/-- Smallest-offset candidate selection, following the specification words
for the scan step: for each key the first occurrence, among the keys the
occurrence with the smallest start offset, ties broken by map order.  This
definition follows the spec text, not the source; it exists to be compared
with `replaceOnce`. -/
def minOffPick (full : Text) : TMap → Option (Nat × Text × Text)
  | [] => none
  | (k, v) :: ps =>
    match strFind full k, minOffPick full ps with
    | none, r => r
    | some s, none => some (s, k, v)
    | some s, some (s', k', v') => if s' < s then some (s', k', v') else some (s, k, v)

/-- The replacement pass as described by the specification sentence behind
claim C1 (smallest-offset occurrence wins): select via `minOffPick`, then
rewrite the spanned fragments.  To be compared with the source-derived
`replaceOnce`. -/
def replaceOnceMinOff (runs : List Run) (ps : TMap) : Option (List Run) :=
  match minOffPick (textOf runs) ps with
  | none => none
  | some (s, k, v) => some (spliceRuns runs s (s + k.length) v)

/-- Witness fixture: a document with a token in a paragraph of a cell of a
table nested inside a cell of an outer table, and tokens in the section
header and footer. -/
def exDocNested : Document :=
  ⟨.mk [] [.mk [.mk [.mk [] [.mk [.mk [.mk [[⟨("T1").toList, 0⟩]] []]]]]]],
   [⟨.mk [[⟨("hT").toList, 1⟩]] [], .mk [[⟨("Tf").toList, 2⟩]] []⟩]⟩

/-- Witness fixture: the token map used with `exDocNested`. -/
def exMapNested : TMap := [(("T").toList, ("w").toList)]

/-- Witness fixture: a one-paragraph document body. -/
def exDocBody : Document := ⟨.mk [[⟨("qAr").toList, 5⟩]] [], []⟩

/-- Witness fixture: a one-entry token map. -/
def exMapAB : TMap := [(("A").toList, ("B").toList)]

/-! ### Basic facts about `strFind` -/

theorem strFind_empty_pat (s : Text) : strFind s [] = some 0 := by
  cases s <;> simp [strFind, List.isPrefixOf]

theorem strFind_some_le {s pat : Text} {i : Nat} (h : strFind s pat = some i) :
    i ≤ s.length := by
  induction s generalizing i with
  | nil =>
    unfold strFind at h
    split at h
    · cases h; simp
    · exact absurd h (by simp)
  | cons a rest ih =>
    unfold strFind at h
    split at h
    · cases h; simp
    · simp only [Option.map_eq_some'] at h
      obtain ⟨j, hj, rfl⟩ := h
      simpa using Nat.succ_le_succ (ih hj)

theorem strFind_some_pfx {s pat : Text} {i : Nat} (h : strFind s pat = some i) :
    pat <+: s.drop i := by
  induction s generalizing i with
  | nil =>
    unfold strFind at h
    split at h
    · cases h
      simp only [List.drop_nil]
      exact List.isPrefixOf_iff_prefix.mp ‹_›
    · exact absurd h (by simp)
  | cons a rest ih =>
    unfold strFind at h
    split at h
    · cases h
      simpa using List.isPrefixOf_iff_prefix.mp ‹_›
    · simp only [Option.map_eq_some'] at h
      obtain ⟨j, hj, rfl⟩ := h
      simpa using ih hj

theorem strFind_some_bound {s pat : Text} {i : Nat} (h : strFind s pat = some i) :
    i + pat.length ≤ s.length := by
  have hp := (strFind_some_pfx h).length_le
  have hi := strFind_some_le h
  simp only [List.length_drop] at hp
  omega

theorem containsSub_false_find {s pat : Text} (h : containsSub s pat = false) :
    strFind s pat = none := by
  unfold containsSub at h
  exact Option.not_isSome_iff_eq_none.mp (by simp [h])

theorem containsSub_true_find {s pat : Text} (h : containsSub s pat = true) :
    ∃ i, strFind s pat = some i := by
  unfold containsSub at h
  exact Option.isSome_iff_exists.mp h

/-! ### Basic facts about `affectedGo` / `affectedIdx` -/

theorem affectedGo_empty {s e : Nat} (rs : List Run) (idx pos : Nat) (h : e ≤ pos) :
    affectedGo s e rs idx pos = [] := by
  induction rs generalizing idx pos with
  | nil => rfl
  | cons r rs ih =>
    unfold affectedGo
    rw [if_neg, ih _ _ (by omega)]
    rintro ⟨-, h2⟩
    omega

theorem affectedGo_idx_shift {s e : Nat} (rs : List Run) (idx pos : Nat) :
    affectedGo s e rs (idx + 1) pos = (affectedGo s e rs idx pos).map (· + 1) := by
  induction rs generalizing idx pos with
  | nil => rfl
  | cons r rs ih =>
    unfold affectedGo
    split
    · simp [ih]
    · simp [ih]

theorem affectedGo_pos_shift {s e c : Nat} (rs : List Run) (idx pos : Nat)
    (h1 : c ≤ s) (h2 : c ≤ e) :
    affectedGo s e rs idx (c + pos) = affectedGo (s - c) (e - c) rs idx pos := by
  induction rs generalizing idx pos with
  | nil => rfl
  | cons r rs ih =>
    unfold affectedGo
    have hcond : (s < c + pos + r.text.length ∧ c + pos < e) ↔
        (s - c < pos + r.text.length ∧ pos < e - c) := by omega
    by_cases hc : s - c < pos + r.text.length ∧ pos < e - c
    · rw [if_pos (hcond.mpr hc), if_pos hc]
      rw [show c + pos + r.text.length = c + (pos + r.text.length) by omega, ih]
    · rw [if_neg (fun hh => hc (hcond.mp hh)), if_neg hc]
      rw [show c + pos + r.text.length = c + (pos + r.text.length) by omega, ih]

/-! ### Basic facts about `mapIdxFrom` -/

theorem mapIdxFrom_length (f : Nat → Run → Run) (n : Nat) (rs : List Run) :
    (mapIdxFrom f n rs).length = rs.length := by
  induction rs generalizing n with
  | nil => rfl
  | cons r rs ih => simp [mapIdxFrom, ih]

theorem mapIdxFrom_getElem? (f : Nat → Run → Run) (n : Nat) (rs : List Run) (j : Nat) :
    (mapIdxFrom f n rs)[j]? = rs[j]?.map (f (n + j)) := by
  induction rs generalizing n j with
  | nil => simp [mapIdxFrom]
  | cons r rs ih =>
    cases j with
    | zero => simp [mapIdxFrom]
    | succ j =>
      simp only [mapIdxFrom, List.getElem?_cons_succ, ih]
      rw [show n + 1 + j = n + (j + 1) by omega]

theorem mapIdxFrom_append (f : Nat → Run → Run) (n : Nat) (l1 l2 : List Run) :
    mapIdxFrom f n (l1 ++ l2) = mapIdxFrom f n l1 ++ mapIdxFrom f (n + l1.length) l2 := by
  induction l1 generalizing n with
  | nil => simp [mapIdxFrom]
  | cons r rs ih =>
    simp only [List.cons_append, mapIdxFrom, List.append_eq, List.length_cons]
    rw [ih (n + 1), show n + 1 + rs.length = n + (rs.length + 1) by omega]

theorem mapIdxFrom_congr {f g : Nat → Run → Run} (n : Nat) (rs : List Run)
    (h : ∀ j r, n ≤ j → j < n + rs.length → f j r = g j r) :
    mapIdxFrom f n rs = mapIdxFrom g n rs := by
  induction rs generalizing n with
  | nil => rfl
  | cons r rs ih =>
    simp only [mapIdxFrom]
    rw [h n r (Nat.le_refl n) (by simp), ih (n + 1) (fun j r hj1 hj2 => h j r (by omega) (by simp at hj2 ⊢; omega))]

theorem mapIdxFrom_id {f : Nat → Run → Run} (n : Nat) (rs : List Run)
    (h : ∀ j r, n ≤ j → j < n + rs.length → f j r = r) :
    mapIdxFrom f n rs = rs := by
  induction rs generalizing n with
  | nil => rfl
  | cons r rs ih =>
    simp only [mapIdxFrom]
    rw [h n r (Nat.le_refl n) (by simp), ih (n + 1) (fun j r hj1 hj2 => h j r (by omega) (by simp at hj2 ⊢; omega))]

theorem mapIdxFrom_eq_map {f : Nat → Run → Run} {g : Run → Run} (n : Nat) (rs : List Run)
    (h : ∀ j r, n ≤ j → j < n + rs.length → f j r = g r) :
    mapIdxFrom f n rs = rs.map g := by
  induction rs generalizing n with
  | nil => rfl
  | cons r rs ih =>
    simp only [mapIdxFrom, List.map_cons]
    rw [h n r (Nat.le_refl n) (by simp), ih (n + 1) (fun j r hj1 hj2 => h j r (by omega) (by simp at hj2 ⊢; omega))]

theorem mapIdxFrom_map_fmt {f : Nat → Run → Run} (n : Nat) (rs : List Run)
    (h : ∀ j r, (f j r).fmt = r.fmt) :
    (mapIdxFrom f n rs).map Run.fmt = rs.map Run.fmt := by
  induction rs generalizing n with
  | nil => rfl
  | cons r rs ih => simp [mapIdxFrom, ih, h]

theorem mapIdxFrom_eraseRuns {f : Nat → Run → Run} (n : Nat) (rs : List Run)
    (h : ∀ j r, (f j r).fmt = r.fmt) :
    eraseRuns (mapIdxFrom f n rs) = eraseRuns rs := by
  induction rs generalizing n with
  | nil => rfl
  | cons r rs ih =>
    simp only [mapIdxFrom, eraseRuns, List.map_cons]
    rw [show ({ (f n r) with text := [] } : Run) = { r with text := [] } by
      cases r; simp [Run.mk.injEq]; exact h n _]
    simpa [eraseRuns] using ih (n + 1)

/-! ### `textOf` / `runPos` arithmetic -/

@[simp] theorem textOf_nil : textOf [] = [] := rfl

@[simp] theorem textOf_cons (r : Run) (rs : List Run) :
    textOf (r :: rs) = r.text ++ textOf rs := by
  simp [textOf]

theorem textOf_append (l1 l2 : List Run) :
    textOf (l1 ++ l2) = textOf l1 ++ textOf l2 := by
  simp [textOf]

@[simp] theorem runPos_zero (runs : List Run) : runPos runs 0 = 0 := by
  simp [runPos]

theorem runPos_cons_succ (r : Run) (rs : List Run) (i : Nat) :
    runPos (r :: rs) (i + 1) = r.text.length + runPos rs i := by
  simp [runPos]

theorem textOf_take (runs : List Run) (i : Nat) :
    textOf (runs.take i) = (textOf runs).take (runPos runs i) := by
  conv_rhs => rw [show runs = runs.take i ++ runs.drop i by simp]
  rw [textOf_append, runPos]
  simp [List.take_left']

theorem textOf_drop (runs : List Run) (i : Nat) :
    textOf (runs.drop i) = (textOf runs).drop (runPos runs i) := by
  conv_rhs => rw [show runs = runs.take i ++ runs.drop i by simp]
  rw [textOf_append, runPos]
  simp [List.drop_left']

theorem take_succ_getD {runs : List Run} {i : Nat} (h : i < runs.length) :
    runs.take (i + 1) = runs.take i ++ [runs.getD i dflt] := by
  rw [List.take_succ, List.getElem?_eq_getElem h]
  simp [List.getD_eq_getElem?_getD, List.getElem?_eq_getElem h]

theorem drop_eq_getD_cons {runs : List Run} {i : Nat} (h : i < runs.length) :
    runs.drop i = runs.getD i dflt :: runs.drop (i + 1) := by
  rw [List.drop_eq_getElem_cons h]
  simp [List.getD_eq_getElem?_getD, List.getElem?_eq_getElem h]

theorem runPos_succ {runs : List Run} {i : Nat} (h : i < runs.length) :
    runPos runs (i + 1) = runPos runs i + (runs.getD i dflt).text.length := by
  unfold runPos
  rw [take_succ_getD h, textOf_append]
  simp

theorem runPos_le_total (runs : List Run) (i : Nat) :
    runPos runs i ≤ (textOf runs).length := by
  conv_rhs => rw [show runs = runs.take i ++ runs.drop i by simp]
  rw [textOf_append, runPos]
  simp

theorem text_getD_eq_segment {runs : List Run} {i : Nat} (h : i < runs.length) :
    (runs.getD i dflt).text = ((textOf runs).drop (runPos runs i)).take (runs.getD i dflt).text.length := by
  have h1 : textOf (runs.drop i) = (runs.getD i dflt).text ++ textOf (runs.drop (i + 1)) := by
    rw [drop_eq_getD_cons h, textOf_cons]
  rw [← textOf_drop, h1]
  simp

/-! ### The affected set is a contiguous index range -/

theorem affectedGo_inocc {s e : Nat} (rs : List Run) :
    ∀ idx pos, s < pos → pos < e → e ≤ pos + (textOf rs).length →
    ∃ k, k < rs.length ∧
      affectedGo s e rs idx pos = List.range' idx (k + 1) ∧
      pos + runPos rs k < e ∧ e ≤ pos + runPos rs k + (rs.getD k dflt).text.length := by
  induction rs with
  | nil =>
    intro idx pos h1 h2 h3
    simp at h3
    omega
  | cons r1 rs1 ih =>
    intro idx pos h1 h2 h3
    have hcond : s < pos + r1.text.length ∧ pos < e := ⟨by omega, h2⟩
    unfold affectedGo
    rw [if_pos hcond]
    by_cases hC : e ≤ pos + r1.text.length
    · refine ⟨0, by simp, ?_, ?_, ?_⟩
      · rw [affectedGo_empty _ _ _ hC]
        simp
      · simpa using h2
      · simpa using hC
    · push_neg at hC
      have h3' : e ≤ pos + r1.text.length + (textOf rs1).length := by
        rw [textOf_cons, List.length_append] at h3
        omega
      obtain ⟨k', hk1, hk2, hk3, hk4⟩ := ih (idx + 1) (pos + r1.text.length)
        (by omega) hC h3'
      refine ⟨k' + 1, by simpa using hk1, ?_, ?_, ?_⟩
      · rw [hk2]
        simp [List.range'_succ]
      · rw [runPos_cons_succ]
        omega
      · rw [runPos_cons_succ, List.getD_cons_succ]
        omega

theorem affectedIdx_range (runs : List Run) :
    ∀ s e, s < e → e ≤ (textOf runs).length →
    ∃ f l, f ≤ l ∧ l < runs.length ∧
      affectedIdx runs s e = List.range' f (l - f + 1) ∧
      runPos runs f ≤ s ∧ s < runPos runs f + (runs.getD f dflt).text.length ∧
      runPos runs l < e ∧ e ≤ runPos runs l + (runs.getD l dflt).text.length := by
  induction runs with
  | nil =>
    intro s e h1 h2
    simp at h2
    omega
  | cons r rs ih =>
    intro s e h1 h2
    rw [textOf_cons, List.length_append] at h2
    unfold affectedIdx affectedGo
    simp only [Nat.zero_add]
    by_cases hB : s < r.text.length
    · rw [if_pos ⟨hB, by omega⟩]
      by_cases hC : e ≤ r.text.length
      · refine ⟨0, 0, Nat.le_refl 0, by simp, ?_, by simp, ?_, ?_, ?_⟩
        · rw [affectedGo_empty _ _ _ hC]
          simp
        · simpa using hB
        · simp only [runPos_zero]
          omega
        · simpa using hC
      · push_neg at hC
        obtain ⟨k, hk1, hk2, hk3, hk4⟩ := affectedGo_inocc rs 1 r.text.length hB hC
          (by omega)
        refine ⟨0, k + 1, by omega, by simpa using hk1, ?_, by simp, ?_, ?_, ?_⟩
        · rw [hk2]
          rw [show k + 1 - 0 + 1 = (k + 1) + 1 by omega]
          simp [List.range'_succ]
        · simpa using hB
        · rw [runPos_cons_succ]
          omega
        · rw [runPos_cons_succ, List.getD_cons_succ]
          omega
    · push_neg at hB
      rw [if_neg (by rintro ⟨ha, -⟩; omega)]
      rw [affectedGo_idx_shift]
      rw [show r.text.length = r.text.length + 0 by omega,
        affectedGo_pos_shift rs 0 0 hB (by omega)]
      obtain ⟨f, l, hfl, hll, heq, hb1, hb2, hb3, hb4⟩ := ih (s - r.text.length) (e - r.text.length)
        (by omega) (by omega)
      refine ⟨f + 1, l + 1, by omega, by simpa using hll, ?_, ?_, ?_, ?_, ?_⟩
      · rw [show affectedGo (s - r.text.length) (e - r.text.length) rs 0 0 = affectedIdx rs (s - r.text.length) (e - r.text.length) from rfl,
          heq]
        rw [show l + 1 - (f + 1) + 1 = l - f + 1 by omega]
        rw [show (List.range' f (l - f + 1)).map (· + 1) = (List.range' f (l - f + 1)).map (1 + ·) from
          List.map_congr_left (fun x _ => by omega)]
        rw [List.map_add_range']
        rw [show 1 + f = f + 1 by omega]
      · rw [runPos_cons_succ]
        omega
      · rw [runPos_cons_succ, List.getD_cons_succ]
        omega
      · rw [runPos_cons_succ]
        omega
      · rw [runPos_cons_succ, List.getD_cons_succ]
        omega



/-! ### Frame facts about `spliceRuns` -/

theorem affectedIdx_ne_nil {runs : List Run} {s e : Nat}
    (h1 : s < e) (h2 : e ≤ (textOf runs).length) :
    affectedIdx runs s e ≠ [] := by
  obtain ⟨f, l, -, -, heq, -⟩ := affectedIdx_range runs s e h1 h2
  rw [heq]
  simp

theorem spliceRuns_length (runs : List Run) (s e : Nat) (v : Text) :
    (spliceRuns runs s e v).length = runs.length := by
  unfold spliceRuns
  split
  · rfl
  · exact mapIdxFrom_length _ _ _

theorem spliceRuns_map_fmt (runs : List Run) (s e : Nat) (v : Text) :
    (spliceRuns runs s e v).map Run.fmt = runs.map Run.fmt := by
  unfold spliceRuns
  split
  · rfl
  · exact mapIdxFrom_map_fmt _ _ (fun j r => by
      repeat' split
      all_goals rfl)

theorem spliceRuns_eraseRuns (runs : List Run) (s e : Nat) (v : Text) :
    eraseRuns (spliceRuns runs s e v) = eraseRuns runs := by
  unfold spliceRuns
  split
  · rfl
  · exact mapIdxFrom_eraseRuns _ _ (fun j r => by
      repeat' split
      all_goals rfl)

theorem spliceRuns_frame {runs : List Run} {s e : Nat} {v : Text} {j : Nat}
    (h : j ∉ affectedIdx runs s e) :
    (spliceRuns runs s e v)[j]? = runs[j]? := by
  unfold spliceRuns
  split
  · rfl
  next first rest heq =>
    rw [mapIdxFrom_getElem?]
    have hj1 : j ≠ first := by
      intro hh
      exact h (by rw [heq, hh]; exact List.mem_cons_self _ _)
    have hj2 : j ≠ rest.getLastD first := by
      intro hh
      exact h (by rw [heq, hh]; exact List.getLastD_mem_cons _ _)
    have hj3 : j ∉ first :: rest := by
      rw [← heq]; exact h
    cases hr : runs[j]? with
    | none => rfl
    | some r =>
      simp only [Option.map_some', Nat.zero_add, if_neg hj1, if_neg hj2, if_neg hj3]

/-! ### Segment algebra for the concatenated text -/

theorem segment_take {runs : List Run} {i s : Nat} (hi : i < runs.length)
    (h1 : runPos runs i ≤ s) (h2 : s < runPos runs i + (runs.getD i dflt).text.length) :
    (textOf runs).take (runPos runs i) ++ (runs.getD i dflt).text.take (s - runPos runs i) =
      (textOf runs).take s := by
  rw [text_getD_eq_segment hi, List.take_take,
    Nat.min_eq_left (by omega), ← List.take_add,
    show runPos runs i + (s - runPos runs i) = s by omega]

theorem segment_drop {runs : List Run} {i e : Nat} (hi : i < runs.length)
    (h1 : runPos runs i < e) (h2 : e ≤ runPos runs i + (runs.getD i dflt).text.length) :
    (runs.getD i dflt).text.drop (e - runPos runs i) ++
      (textOf runs).drop (runPos runs i + (runs.getD i dflt).text.length) =
      (textOf runs).drop e := by
  set n := (runs.getD i dflt).text.length with hn
  rw [text_getD_eq_segment hi]
  rw [List.drop_take, List.drop_drop,
    show runPos runs i + (e - runPos runs i) = e by omega]
  rw [show runPos runs i + n = e + (n - (e - runPos runs i)) by omega, ← List.drop_drop]
  exact List.take_append_drop _ _

theorem textOf_erase_all (rs : List Run) :
    textOf (rs.map (fun r => { r with text := ([] : Text) })) = [] := by
  induction rs with
  | nil => rfl
  | cons r rs ih => simpa using ih

/-- Decomposition of a run list around one index. -/
theorem runs_decomp_single {runs : List Run} {i : Nat} (h : i < runs.length) :
    runs = runs.take i ++ runs.getD i dflt :: runs.drop (i + 1) := by
  conv_lhs => rw [← List.take_append_drop i runs]
  rw [drop_eq_getD_cons h]

/-- Decomposition of a run list around two indices `f < l`. -/
theorem runs_decomp_pair {runs : List Run} {f l : Nat} (hfl : f < l) (hl : l < runs.length) :
    runs = runs.take f ++ runs.getD f dflt ::
      ((runs.drop (f + 1)).take (l - f - 1) ++ runs.getD l dflt :: runs.drop (l + 1)) := by
  conv_lhs => rw [runs_decomp_single (lt_trans hfl hl)]
  congr 1
  congr 1
  conv_lhs => rw [← List.take_append_drop (l - f - 1) (runs.drop (f + 1))]
  rw [List.drop_drop, show f + 1 + (l - f - 1) = l by omega]
  rw [drop_eq_getD_cons hl]

theorem getLastD_range' (n : Nat) : ∀ a : Nat, (List.range' (a + 1) n).getLastD a = a + n := by
  induction n with
  | zero => intro a; simp
  | succ n ih =>
    intro a
    rw [List.range'_succ, List.getLastD_cons, ih (a + 1)]
    omega

theorem mapIdxFrom_cons (f : Nat → Run → Run) (n : Nat) (r : Run) (rs : List Run) :
    mapIdxFrom f n (r :: rs) = f n r :: mapIdxFrom f (n + 1) rs := rfl

/-- The central rewrite fact: one splice of the occurrence `[s, e)` turns
the concatenated text into `prefix-part ++ v ++ suffix-part`. -/
theorem spliceRuns_textOf {runs : List Run} {s e : Nat} (v : Text)
    (h1 : s < e) (h2 : e ≤ (textOf runs).length) :
    textOf (spliceRuns runs s e v) = (textOf runs).take s ++ v ++ (textOf runs).drop e := by
  obtain ⟨f, l, hfl, hll, heq, hb1, hb2, hb3, hb4⟩ := affectedIdx_range runs s e h1 h2
  have hlen_take : (runs.take f).length = f := by
    rw [List.length_take]
    omega
  obtain ⟨P, hP⟩ : ∃ P, (runs.getD f dflt).text.take (s - runPos runs f) = P := ⟨_, rfl⟩
  obtain ⟨S, hS⟩ : ∃ S, (runs.getD l dflt).text.drop (e - runPos runs l) = S := ⟨_, rfl⟩
  have hsplice : spliceRuns runs s e v = mapIdxFrom (fun j r =>
      if j = f then
        if f = l then { r with text := P ++ v ++ S }
        else { r with text := P ++ v }
      else if j = l then { r with text := S }
      else if j ∈ f :: List.range' (f + 1) (l - f) then { r with text := [] }
      else r) 0 runs := by
    unfold spliceRuns
    rw [heq, show List.range' f (l - f + 1) = f :: List.range' (f + 1) (l - f) from
      List.range'_succ f (l - f) 1]
    have hlast : (List.range' (f + 1) (l - f)).getLastD f = l := by
      rw [getLastD_range']
      omega
    dsimp only
    simp only [hlast, hP, hS]
  by_cases hcase : f = l
  · subst hcase
    rw [hsplice]
    have hdec : mapIdxFrom (fun j r =>
        if j = f then
          if f = f then { r with text := P ++ v ++ S }
          else { r with text := P ++ v }
        else if j = f then { r with text := S }
        else if j ∈ f :: List.range' (f + 1) (f - f) then { r with text := [] }
        else r) 0 runs =
        runs.take f ++ ({ runs.getD f dflt with text := P ++ v ++ S } : Run) :: runs.drop (f + 1) := by
      conv_lhs => rw [runs_decomp_single hll]
      rw [mapIdxFrom_append, hlen_take, Nat.zero_add, mapIdxFrom_cons]
      rw [mapIdxFrom_id 0 _ (fun j r hj0 hjf => by
        rw [hlen_take] at hjf
        have hj : j ≠ f := by omega
        simp [hj])]
      rw [mapIdxFrom_id (f + 1) _ (fun j r hj0 hjf => by
        have hj : j ≠ f := by omega
        simp [hj])]
      simp
    rw [hdec, textOf_append, textOf_cons]
    rw [textOf_take runs f, textOf_drop runs (f + 1), runPos_succ hll]
    rw [← hP, ← hS]
    calc (textOf runs).take (runPos runs f) ++
          (((runs.getD f dflt).text.take (s - runPos runs f) ++ v ++
            (runs.getD f dflt).text.drop (e - runPos runs f)) ++
          (textOf runs).drop (runPos runs f + (runs.getD f dflt).text.length))
        = ((textOf runs).take (runPos runs f) ++ (runs.getD f dflt).text.take (s - runPos runs f)) ++ v ++
          ((runs.getD f dflt).text.drop (e - runPos runs f) ++
            (textOf runs).drop (runPos runs f + (runs.getD f dflt).text.length)) := by
          simp [List.append_assoc]
      _ = (textOf runs).take s ++ v ++ (textOf runs).drop e := by
          rw [segment_take hll hb1 hb2, segment_drop hll hb3 hb4]
  · have hfl' : f < l := lt_of_le_of_ne hfl hcase
    have hlf : l ≠ f := fun h => hcase h.symm
    have hlenM : ((runs.drop (f + 1)).take (l - f - 1)).length = l - f - 1 := by
      rw [List.length_take, List.length_drop]
      omega
    rw [hsplice]
    have hdec : mapIdxFrom (fun j r =>
        if j = f then
          if f = l then { r with text := P ++ v ++ S }
          else { r with text := P ++ v }
        else if j = l then { r with text := S }
        else if j ∈ f :: List.range' (f + 1) (l - f) then { r with text := [] }
        else r) 0 runs =
        runs.take f ++ ({ runs.getD f dflt with text := P ++ v } : Run) ::
          (((runs.drop (f + 1)).take (l - f - 1)).map (fun r => { r with text := ([] : Text) }) ++
            ({ runs.getD l dflt with text := S } : Run) :: runs.drop (l + 1)) := by
      conv_lhs => rw [runs_decomp_pair hfl' hll]
      rw [mapIdxFrom_append, hlen_take, Nat.zero_add, mapIdxFrom_cons]
      rw [mapIdxFrom_append, hlenM, show f + 1 + (l - f - 1) = l by omega, mapIdxFrom_cons]
      rw [mapIdxFrom_id 0 _ (fun j r hj0 hjf => by
        rw [hlen_take] at hjf
        have hj1 : j ≠ f := by omega
        have hj2 : j ≠ l := by omega
        have hj3 : ¬ (f + 1 ≤ j) := by omega
        simp [hj1, hj2, List.mem_range'_1, hj3])]
      rw [@mapIdxFrom_eq_map _ (fun r => ({ r with text := ([] : Text) } : Run)) (f + 1) _
        (fun j r hj0 hjf => by
          rw [hlenM] at hjf
          have hj1 : j ≠ f := by omega
          have hj2 : j ≠ l := by omega
          have hj3 : j ∈ f :: List.range' (f + 1) (l - f) := by
            simp only [List.mem_cons, List.mem_range'_1]
            omega
          simp [hj1, hj2, hj3])]
      rw [mapIdxFrom_id (l + 1) _ (fun j r hj0 hjf => by
        have hj1 : j ≠ f := by omega
        have hj2 : j ≠ l := by omega
        have hj3 : j ∉ f :: List.range' (f + 1) (l - f) := by
          simp only [List.mem_cons, List.mem_range'_1]
          omega
        simp [hj1, hj2, hj3])]
      simp [hcase, hlf]
    rw [hdec, textOf_append, textOf_cons, textOf_append, textOf_cons, textOf_erase_all]
    rw [textOf_take runs f, textOf_drop runs (l + 1), runPos_succ hll]
    rw [← hP, ← hS]
    calc (textOf runs).take (runPos runs f) ++
          (((runs.getD f dflt).text.take (s - runPos runs f) ++ v) ++
          ([] ++ ((runs.getD l dflt).text.drop (e - runPos runs l) ++
            (textOf runs).drop (runPos runs l + (runs.getD l dflt).text.length))))
        = ((textOf runs).take (runPos runs f) ++ (runs.getD f dflt).text.take (s - runPos runs f)) ++ v ++
          ((runs.getD l dflt).text.drop (e - runPos runs l) ++
            (textOf runs).drop (runPos runs l + (runs.getD l dflt).text.length)) := by
          simp [List.append_assoc]
      _ = (textOf runs).take s ++ v ++ (textOf runs).drop e := by
          rw [segment_take (lt_trans hfl' hll) hb1 hb2, segment_drop hll hb3 hb4]


/-! ### Behaviour of the key loop `replaceOnceGo` -/

theorem replaceOnceGo_skip_notfound {runs : List Run} {full k : Text} (v : Text) (ps : TMap)
    (h : strFind full k = none) :
    replaceOnceGo runs full ((k, v) :: ps) = replaceOnceGo runs full ps := by
  simp [replaceOnceGo, h]

theorem affectedIdx_zero_zero (runs : List Run) : affectedIdx runs 0 0 = [] :=
  affectedGo_empty _ _ _ (Nat.le_refl 0)

theorem replaceOnceGo_skip_empty_key {runs : List Run} {full : Text} (v : Text) (ps : TMap) :
    replaceOnceGo runs full (([], v) :: ps) = replaceOnceGo runs full ps := by
  simp [replaceOnceGo, strFind_empty_pat, affectedIdx_zero_zero]

theorem replaceOnce_head_found {runs : List Run} {k : Text} (v : Text) (ps : TMap) {s : Nat}
    (hk : k ≠ []) (hfind : strFind (textOf runs) k = some s) :
    replaceOnce runs ((k, v) :: ps) = some (spliceRuns runs s (s + k.length) v) := by
  have hne : affectedIdx runs s (s + k.length) ≠ [] :=
    affectedIdx_ne_nil (by have := List.length_pos.mpr hk; omega) (strFind_some_bound hfind)
  simp [replaceOnce, replaceOnceGo, hfind, hne]

theorem replaceOnceGo_some_splice {runs : List Run} {full : Text} {ps : TMap} {r' : List Run}
    (h : replaceOnceGo runs full ps = some r') :
    ∃ s e v, r' = spliceRuns runs s e v := by
  induction ps with
  | nil => exact absurd h (by simp [replaceOnceGo])
  | cons kv ps ih =>
    obtain ⟨k, v⟩ := kv
    unfold replaceOnceGo at h
    split at h
    · exact ih h
    · split at h
      · exact ih h
      · exact ⟨_, _, _, (Option.some.inj h).symm⟩

theorem replaceOnce_isSome {runs : List Run} {ps : TMap}
    (h : ∃ kv ∈ ps, kv.1 ≠ [] ∧ containsSub (textOf runs) kv.1 = true) :
    (replaceOnce runs ps).isSome = true := by
  induction ps with
  | nil => simp at h
  | cons kv ps ih =>
    obtain ⟨k0, v0⟩ := kv
    by_cases hk0 : k0 = []
    · subst hk0
      rw [show replaceOnce runs (([], v0) :: ps) = replaceOnce runs ps from
        replaceOnceGo_skip_empty_key v0 ps]
      apply ih
      obtain ⟨kv, hmem, hne, hsub⟩ := h
      refine ⟨kv, ?_, hne, hsub⟩
      rcases List.mem_cons.mp hmem with heq | hmem'
      · exact absurd (congrArg Prod.fst heq) (by simpa using hne)
      · exact hmem'
    · cases hf : strFind (textOf runs) k0 with
      | none =>
        rw [show replaceOnce runs ((k0, v0) :: ps) = replaceOnce runs ps from
          replaceOnceGo_skip_notfound v0 ps hf]
        apply ih
        obtain ⟨kv, hmem, hne, hsub⟩ := h
        refine ⟨kv, ?_, hne, hsub⟩
        rcases List.mem_cons.mp hmem with heq | hmem'
        · exfalso
          obtain ⟨i0, hi0⟩ := containsSub_true_find hsub
          rw [heq] at hi0
          simp only [] at hi0
          rw [hf] at hi0
          cases hi0
        · exact hmem'
      | some s =>
        rw [replaceOnce_head_found v0 ps hk0 hf]
        rfl

theorem replaceOnce_none_not_contained {runs : List Run} {ps : TMap}
    (h : replaceOnce runs ps = none) :
    ∀ kv ∈ ps, kv.1 ≠ [] → containsSub (textOf runs) kv.1 = false := by
  intro kv hmem hne
  by_contra hc
  have hc' : containsSub (textOf runs) kv.1 = true := by
    cases hcc : containsSub (textOf runs) kv.1
    · exact absurd hcc hc
    · rfl
  have := replaceOnce_isSome ⟨kv, hmem, hne, hc'⟩
  rw [h] at this
  cases this

/-- Map-order selection: the key that is replaced is the first key of the
map that occurs at all, at its first occurrence. -/
theorem replaceOnce_select {runs : List Run} {ps : TMap} {i : Nat} {k v : Text}
    (hget : ps[i]? = some (k, v)) (hk : k ≠ [])
    (hocc : containsSub (textOf runs) k = true)
    (hprev : ∀ j, j < i → ∀ kv, ps[j]? = some kv → containsSub (textOf runs) kv.1 = false) :
    ∃ s, strFind (textOf runs) k = some s ∧
      replaceOnce runs ps = some (spliceRuns runs s (s + k.length) v) := by
  induction ps generalizing i with
  | nil => simp at hget
  | cons kv0 ps ih =>
    obtain ⟨k0, v0⟩ := kv0
    cases i with
    | zero =>
      simp only [List.getElem?_cons_zero, Option.some.injEq] at hget
      obtain ⟨s, hs⟩ := containsSub_true_find hocc
      cases hget
      exact ⟨s, hs, replaceOnce_head_found v ps hk hs⟩
    | succ i =>
      simp only [List.getElem?_cons_succ] at hget
      have h0 : containsSub (textOf runs) k0 = false := by
        have := hprev 0 (Nat.succ_pos i) (k0, v0) (by simp)
        exact this
      have hf0 : strFind (textOf runs) k0 = none := containsSub_false_find h0
      rw [show replaceOnce runs ((k0, v0) :: ps) = replaceOnce runs ps from
        replaceOnceGo_skip_notfound v0 ps hf0]
      exact ih hget (fun j hj kv hkv => hprev (j + 1) (by omega) kv (by simpa using hkv))

/-! ### The fixed-point loop -/

theorem replaceLoop_of_none {runs : List Run} {ps : TMap}
    (h : replaceOnce runs ps = none) (fuel : Nat) :
    replaceLoop fuel runs ps = runs := by
  cases fuel <;> simp [replaceLoop, h]

theorem replaceLoop_of_some {runs r' : List Run} {ps : TMap}
    (h : replaceOnce runs ps = some r') (fuel : Nat) :
    replaceLoop (fuel + 1) runs ps = replaceLoop fuel r' ps := by
  simp [replaceLoop, h]

theorem replaceOnce_empty_key_congr (runs : List Run) (v : Text) (ps1 ps2 : TMap) :
    replaceOnce runs (ps1 ++ ([], v) :: ps2) = replaceOnce runs (ps1 ++ ps2) := by
  unfold replaceOnce
  induction ps1 with
  | nil => exact replaceOnceGo_skip_empty_key v ps2
  | cons kv0 ps1 ih =>
    obtain ⟨k0, v0⟩ := kv0
    simp only [List.cons_append]
    unfold replaceOnceGo
    cases hf : strFind (textOf runs) k0 with
    | none => exact ih
    | some s =>
      by_cases ha : affectedIdx runs s (s + k0.length) = []
      · simp only [if_pos ha]
        exact ih
      · simp only [if_neg ha]

theorem replaceLoop_empty_key_congr (fuel : Nat) (runs : List Run) (v : Text) (ps1 ps2 : TMap) :
    replaceLoop fuel runs (ps1 ++ ([], v) :: ps2) = replaceLoop fuel runs (ps1 ++ ps2) := by
  induction fuel generalizing runs with
  | zero => rfl
  | succ fuel ih =>
    unfold replaceLoop
    rw [replaceOnce_empty_key_congr]
    cases replaceOnce runs (ps1 ++ ps2) with
    | none => rfl
    | some r' => exact ih r'

theorem replaceOnce_eraseRuns {runs r' : List Run} {ps : TMap}
    (h : replaceOnce runs ps = some r') :
    eraseRuns r' = eraseRuns runs := by
  obtain ⟨s, e, v, rfl⟩ := replaceOnceGo_some_splice h
  exact spliceRuns_eraseRuns runs s e v

theorem replaceLoop_eraseRuns (fuel : Nat) (runs : List Run) (ps : TMap) :
    eraseRuns (replaceLoop fuel runs ps) = eraseRuns runs := by
  induction fuel generalizing runs with
  | zero => rfl
  | succ fuel ih =>
    unfold replaceLoop
    cases hr : replaceOnce runs ps with
    | none => rfl
    | some r' => rw [ih r', replaceOnce_eraseRuns hr]

/-! ### The walker reaches exactly the collected paragraphs -/

mutual
theorem contParas_repl (fuel : Nat) (ps : TMap) (c : Container) :
    contParas (replCont fuel ps c) = (contParas c).map (fun p => replaceLoop fuel p ps) := by
  cases c with
  | mk paras tables =>
    simp [replCont, contParas, tablesParas_repl fuel ps tables]
theorem tablesParas_repl (fuel : Nat) (ps : TMap) (ts : List Table) :
    tablesParas (replTables fuel ps ts) = (tablesParas ts).map (fun p => replaceLoop fuel p ps) := by
  cases ts with
  | nil => rfl
  | cons t ts =>
    simp [replTables, tablesParas, tableParas_repl fuel ps t, tablesParas_repl fuel ps ts]
theorem tableParas_repl (fuel : Nat) (ps : TMap) (t : Table) :
    tableParas (replTable fuel ps t) = (tableParas t).map (fun p => replaceLoop fuel p ps) := by
  cases t with
  | mk rows => simp [replTable, tableParas, rowsParas_repl fuel ps rows]
theorem rowsParas_repl (fuel : Nat) (ps : TMap) (rs : List Row) :
    rowsParas (replRows fuel ps rs) = (rowsParas rs).map (fun p => replaceLoop fuel p ps) := by
  cases rs with
  | nil => rfl
  | cons r rs =>
    simp [replRows, rowsParas, rowParas_repl fuel ps r, rowsParas_repl fuel ps rs]
theorem rowParas_repl (fuel : Nat) (ps : TMap) (r : Row) :
    rowParas (replRow fuel ps r) = (rowParas r).map (fun p => replaceLoop fuel p ps) := by
  cases r with
  | mk cells => simp [replRow, rowParas, cellsParas_repl fuel ps cells]
theorem cellsParas_repl (fuel : Nat) (ps : TMap) (cs : List Container) :
    cellsParas (replCells fuel ps cs) = (cellsParas cs).map (fun p => replaceLoop fuel p ps) := by
  cases cs with
  | nil => rfl
  | cons c cs =>
    simp [replCells, cellsParas, contParas_repl fuel ps c, cellsParas_repl fuel ps cs]
end

theorem docParas_repl (fuel : Nat) (ps : TMap) (d : Document) :
    docParas (replaceDoc fuel ps d) = (docParas d).map (fun p => replaceLoop fuel p ps) := by
  unfold docParas replaceDoc
  simp only [List.map_append, List.map_map, contParas_repl, List.map_flatten]
  congr 1
  congr 1
  apply List.map_congr_left
  intro s hs
  simp [contParas_repl, List.map_append]

/-! ### The walker never changes the skeleton -/

mutual
theorem skelCont_repl (fuel : Nat) (ps : TMap) (c : Container) :
    skelCont (replCont fuel ps c) = skelCont c := by
  cases c with
  | mk paras tables =>
    simp only [replCont, skelCont, skelTables_repl fuel ps tables, List.map_map]
    congr 1
    apply List.map_congr_left
    intro p hp
    simp [replaceLoop_eraseRuns]
theorem skelTables_repl (fuel : Nat) (ps : TMap) (ts : List Table) :
    skelTables (replTables fuel ps ts) = skelTables ts := by
  cases ts with
  | nil => rfl
  | cons t ts =>
    simp [replTables, skelTables, skelTable_repl fuel ps t, skelTables_repl fuel ps ts]
theorem skelTable_repl (fuel : Nat) (ps : TMap) (t : Table) :
    skelTable (replTable fuel ps t) = skelTable t := by
  cases t with
  | mk rows => simp [replTable, skelTable, skelRows_repl fuel ps rows]
theorem skelRows_repl (fuel : Nat) (ps : TMap) (rs : List Row) :
    skelRows (replRows fuel ps rs) = skelRows rs := by
  cases rs with
  | nil => rfl
  | cons r rs =>
    simp [replRows, skelRows, skelRow_repl fuel ps r, skelRows_repl fuel ps rs]
theorem skelRow_repl (fuel : Nat) (ps : TMap) (r : Row) :
    skelRow (replRow fuel ps r) = skelRow r := by
  cases r with
  | mk cells => simp [replRow, skelRow, skelCells_repl fuel ps cells]
theorem skelCells_repl (fuel : Nat) (ps : TMap) (cs : List Container) :
    skelCells (replCells fuel ps cs) = skelCells cs := by
  cases cs with
  | nil => rfl
  | cons c cs =>
    simp [replCells, skelCells, skelCont_repl fuel ps c, skelCells_repl fuel ps cs]
end

theorem skelDoc_repl (fuel : Nat) (ps : TMap) (d : Document) :
    skelDoc (replaceDoc fuel ps d) = skelDoc d := by
  unfold skelDoc replaceDoc
  simp only [List.map_map]
  congr 1
  · exact skelCont_repl fuel ps d.body
  · apply List.map_congr_left
    intro s hs
    simp [skelCont_repl]

/-! ### A tree whose paragraphs are at a fixed point is left unchanged -/

mutual
theorem replCont_fixpoint (fuel : Nat) (ps : TMap) (c : Container)
    (h : ∀ p ∈ contParas c, replaceOnce p ps = none) :
    replCont fuel ps c = c := by
  cases c with
  | mk paras tables =>
    unfold replCont
    congr 1
    · rw [show (paras.map fun p => replaceLoop fuel p ps) =
          paras.map id from List.map_congr_left (fun p hp =>
            replaceLoop_of_none (h p (by simp [contParas, List.mem_append_left _ hp])) fuel)]
      exact List.map_id paras
    · exact replTables_fixpoint fuel ps tables (fun p hp =>
        h p (by simp [contParas, List.mem_append_right _ hp]))
theorem replTables_fixpoint (fuel : Nat) (ps : TMap) (ts : List Table)
    (h : ∀ p ∈ tablesParas ts, replaceOnce p ps = none) :
    replTables fuel ps ts = ts := by
  cases ts with
  | nil => rfl
  | cons t ts =>
    unfold replTables
    congr 1
    · exact replTable_fixpoint fuel ps t (fun p hp =>
        h p (by simp [tablesParas, List.mem_append_left _ hp]))
    · exact replTables_fixpoint fuel ps ts (fun p hp =>
        h p (by simp [tablesParas, List.mem_append_right _ hp]))
theorem replTable_fixpoint (fuel : Nat) (ps : TMap) (t : Table)
    (h : ∀ p ∈ tableParas t, replaceOnce p ps = none) :
    replTable fuel ps t = t := by
  cases t with
  | mk rows =>
    unfold replTable
    congr 1
    exact replRows_fixpoint fuel ps rows (fun p hp => h p (by simpa [tableParas] using hp))
theorem replRows_fixpoint (fuel : Nat) (ps : TMap) (rs : List Row)
    (h : ∀ p ∈ rowsParas rs, replaceOnce p ps = none) :
    replRows fuel ps rs = rs := by
  cases rs with
  | nil => rfl
  | cons r rs =>
    unfold replRows
    congr 1
    · exact replRow_fixpoint fuel ps r (fun p hp =>
        h p (by simp [rowsParas, List.mem_append_left _ hp]))
    · exact replRows_fixpoint fuel ps rs (fun p hp =>
        h p (by simp [rowsParas, List.mem_append_right _ hp]))
theorem replRow_fixpoint (fuel : Nat) (ps : TMap) (r : Row)
    (h : ∀ p ∈ rowParas r, replaceOnce p ps = none) :
    replRow fuel ps r = r := by
  cases r with
  | mk cells =>
    unfold replRow
    congr 1
    exact replCells_fixpoint fuel ps cells (fun p hp => h p (by simpa [rowParas] using hp))
theorem replCells_fixpoint (fuel : Nat) (ps : TMap) (cs : List Container)
    (h : ∀ p ∈ cellsParas cs, replaceOnce p ps = none) :
    replCells fuel ps cs = cs := by
  cases cs with
  | nil => rfl
  | cons c cs =>
    unfold replCells
    congr 1
    · exact replCont_fixpoint fuel ps c (fun p hp =>
        h p (by simp [cellsParas, List.mem_append_left _ hp]))
    · exact replCells_fixpoint fuel ps cs (fun p hp =>
        h p (by simp [cellsParas, List.mem_append_right _ hp]))
end

theorem replaceDoc_fixpoint (fuel : Nat) (ps : TMap) (d : Document)
    (h : ∀ p ∈ docParas d, replaceOnce p ps = none) :
    replaceDoc fuel ps d = d := by
  have hbody : ∀ p ∈ contParas d.body, replaceOnce p ps = none := fun p hp =>
    h p (by simp [docParas, List.mem_append_left _ hp])
  have hsec : ∀ s ∈ d.sections, (∀ p ∈ contParas s.header, replaceOnce p ps = none) ∧
      (∀ p ∈ contParas s.footer, replaceOnce p ps = none) := by
    intro s hs
    constructor
    · intro p hp
      apply h
      simp only [docParas, List.mem_append, List.mem_flatten]
      right
      exact ⟨contParas s.header ++ contParas s.footer, List.mem_map_of_mem _ hs,
        List.mem_append_left _ hp⟩
    · intro p hp
      apply h
      simp only [docParas, List.mem_append, List.mem_flatten]
      right
      exact ⟨contParas s.header ++ contParas s.footer, List.mem_map_of_mem _ hs,
        List.mem_append_right _ hp⟩
  unfold replaceDoc
  cases d with
  | mk body sections =>
    simp only [Document.mk.injEq]
    constructor
    · exact replCont_fixpoint fuel ps body hbody
    · rw [show (sections.map fun s =>
          ({ header := replCont fuel ps s.header, footer := replCont fuel ps s.footer } : Section')) =
          sections.map id from List.map_congr_left (fun s hs => by
            obtain ⟨hh, hf⟩ := hsec s hs
            cases s with
            | mk hd ft =>
              simp only [id]
              congr 1
              · exact replCont_fixpoint fuel ps hd hh
              · exact replCont_fixpoint fuel ps ft hf)]
      exact List.map_id sections

/-! ### Remaining helper lemmas -/

theorem replaceOnce_none_of_not_contained {runs : List Run} {ps : TMap}
    (h : ∀ kv ∈ ps, containsSub (textOf runs) kv.1 = false) :
    replaceOnce runs ps = none := by
  induction ps with
  | nil => rfl
  | cons kv0 ps ih =>
    obtain ⟨k0, v0⟩ := kv0
    have h0 : strFind (textOf runs) k0 = none :=
      containsSub_false_find (h (k0, v0) (List.mem_cons_self _ _))
    rw [show replaceOnce runs ((k0, v0) :: ps) = replaceOnce runs ps from
      replaceOnceGo_skip_notfound v0 ps h0]
    exact ih (fun kv hkv => h kv (List.mem_cons_of_mem _ hkv))

theorem getElem?_eq_getD {runs : List Run} {j : Nat} (h : j < runs.length) :
    runs[j]? = some (runs.getD j dflt) := by
  rw [List.getElem?_eq_getElem h]
  simp [List.getD_eq_getElem?_getD, List.getElem?_eq_getElem h]

theorem spliceRuns_getElem?_eq {runs : List Run} {s e : Nat} {v : Text} {first : Nat}
    {rest : List Nat} (heq : affectedIdx runs s e = first :: rest) (j : Nat) :
    (spliceRuns runs s e v)[j]? = runs[j]?.map (fun r =>
      if j = first then
        if first = rest.getLastD first then
          { r with text := (runs.getD first dflt).text.take (s - runPos runs first) ++ v ++
              (runs.getD (rest.getLastD first) dflt).text.drop (e - runPos runs (rest.getLastD first)) }
        else { r with text := (runs.getD first dflt).text.take (s - runPos runs first) ++ v }
      else if j = rest.getLastD first then
        { r with text := List.drop (e - runPos runs (rest.getLastD first)) (runs.getD (rest.getLastD first) dflt).text }
      else if j ∈ first :: rest then { r with text := [] }
      else r) := by
  unfold spliceRuns
  rw [heq]
  dsimp only
  rw [mapIdxFrom_getElem?]
  simp only [Nat.zero_add]

theorem affected_cons_facts {runs : List Run} {s e first : Nat} {rest : List Nat}
    (h1 : s < e) (h2 : e ≤ (textOf runs).length)
    (heq : affectedIdx runs s e = first :: rest) :
    first < runs.length ∧
    (rest = [] ∨ (rest.getLastD first < runs.length ∧ first < rest.getLastD first ∧
      rest.getLastD first ∈ rest ∧ (∀ j ∈ rest, first < j ∧ j ≤ rest.getLastD first))) := by
  obtain ⟨f, l, hfl, hll, heq', hb1, hb2, hb3, hb4⟩ := affectedIdx_range runs s e h1 h2
  rw [heq, show List.range' f (l - f + 1) = f :: List.range' (f + 1) (l - f) from
    List.range'_succ f (l - f) 1] at heq'
  obtain ⟨hf, hrest⟩ : first = f ∧ rest = List.range' (f + 1) (l - f) := by
    cases heq'
    exact ⟨rfl, rfl⟩
  subst hf
  subst hrest
  refine ⟨by omega, ?_⟩
  by_cases hfl2 : l = first
  · left
    subst hfl2
    simp
  · right
    have hlast : (List.range' (first + 1) (l - first)).getLastD first = l := by
      rw [getLastD_range']
      omega
    rw [hlast]
    refine ⟨hll, by omega, ?_, ?_⟩
    · simp only [List.mem_range'_1]
      omega
    · intro j hj
      simp only [List.mem_range'_1] at hj
      omega

/-! ### Claims -/

/-- Claim C1, counterexample: with the paragraph text `B A` and the map
`A -> x, B -> y` (in that order), the single pass replaces `A` (the first
key in map order), although `B` occurs at offset 0 while `A` only occurs
at offset 2.  The smallest-offset rule described by the claim (modelled by
`replaceOnceMinOff`) would replace `B`; the source does not. -/
theorem c1_counterexample :
    strFind (textOf [⟨("B A").toList, 7⟩]) (("B").toList) = some 0 ∧
    strFind (textOf [⟨("B A").toList, 7⟩]) (("A").toList) = some 2 ∧
    replaceOnce [⟨("B A").toList, 7⟩]
        [(("A").toList, ("x").toList), (("B").toList, ("y").toList)] =
      some [⟨("B x").toList, 7⟩] ∧
    replaceOnceMinOff [⟨("B A").toList, 7⟩]
        [(("A").toList, ("x").toList), (("B").toList, ("y").toList)] =
      some [⟨("y A").toList, 7⟩] ∧
    replaceOnce [⟨("B A").toList, 7⟩]
        [(("A").toList, ("x").toList), (("B").toList, ("y").toList)] ≠
      replaceOnceMinOff [⟨("B A").toList, 7⟩]
        [(("A").toList, ("x").toList), (("B").toList, ("y").toList)] := by
  decide

/-- Claim C1 (amended): a single replacement pass of the Run-Span Replacer
replaces the first occurrence of the earliest key in map order that occurs
anywhere in the concatenated fragment text; occurrence offsets of
different keys are never compared, so a later-in-map key is replaced even
when another key occurs earlier in the text. -/
theorem c1_map_order_selection (runs : List Run) (ps : TMap) (i : Nat) (k v : Text)
    (hget : ps[i]? = some (k, v)) (hk : k ≠ [])
    (hocc : containsSub (textOf runs) k = true)
    (hprev : ∀ j, j < i → containsSub (textOf runs) ((ps[j]?.getD ([], [])).1) = false) :
    ∃ s, strFind (textOf runs) k = some s ∧
      replaceOnce runs ps = some (spliceRuns runs s (s + k.length) v) ∧
      textOf (spliceRuns runs s (s + k.length) v) =
        (textOf runs).take s ++ v ++ (textOf runs).drop (s + k.length) := by
  obtain ⟨s, hs, hrepl⟩ := replaceOnce_select hget hk hocc (fun j hj kv hkv => by
    have hh := hprev j hj
    rw [hkv] at hh
    simpa using hh)
  refine ⟨s, hs, hrepl, spliceRuns_textOf v ?_ (strFind_some_bound hs)⟩
  have := List.length_pos.mpr hk
  omega

/-- Witness for the amended C1 at a concrete input: the map is
`Z -> q, A -> x`, the text is `B A`; `Z` does not occur, so `A` (map index
1) is the key replaced, at its first occurrence. -/
theorem c1_witness :
    ∃ s, strFind (textOf [⟨("B A").toList, 7⟩]) (("A").toList) = some s ∧
      replaceOnce [⟨("B A").toList, 7⟩]
          [(("Z").toList, ("q").toList), (("A").toList, ("x").toList)] =
        some (spliceRuns [⟨("B A").toList, 7⟩] s (s + (("A").toList).length) (("x").toList)) ∧
      textOf (spliceRuns [⟨("B A").toList, 7⟩] s (s + (("A").toList).length) (("x").toList)) =
        (textOf [⟨("B A").toList, 7⟩]).take s ++ ("x").toList ++
          (textOf [⟨("B A").toList, 7⟩]).drop (s + (("A").toList).length) :=
  c1_map_order_selection [⟨("B A").toList, 7⟩]
    [(("Z").toList, ("q").toList), (("A").toList, ("x").toList)] 1
    (("A").toList) (("x").toList) (by decide) (by decide) (by decide) (by decide)

/-- Claim C2: one replacement of the occurrence `[s, s + |k|)` rewrites
only the fragments overlapping the occurrence: the first affected fragment
becomes `prefix ++ value` (plus the suffix when it is the only affected
fragment), middle affected fragments become empty, the last affected
fragment becomes the suffix; every other fragment is untouched, fragment
count, order and formatting payloads are unchanged, and the concatenation
becomes `before ++ value ++ after`. -/
theorem c2_span_rewrite (runs : List Run) (k v : Text) (s : Nat)
    (hk : k ≠ []) (hs : strFind (textOf runs) k = some s) :
    ∃ runs', replaceOnce runs [(k, v)] = some runs' ∧
      runs'.length = runs.length ∧
      runs'.map Run.fmt = runs.map Run.fmt ∧
      textOf runs' = (textOf runs).take s ++ v ++ (textOf runs).drop (s + k.length) ∧
      (∀ j, j ∉ affectedIdx runs s (s + k.length) → runs'[j]? = runs[j]?) ∧
      (∀ first rest, affectedIdx runs s (s + k.length) = first :: rest →
        (rest = [] → runs'[first]? = some { runs.getD first dflt with
          text := (runs.getD first dflt).text.take (s - runPos runs first) ++ v ++ List.drop (s + k.length - runPos runs first) (runs.getD first dflt).text }) ∧
        (rest ≠ [] →
          runs'[first]? = some { runs.getD first dflt with
            text := (runs.getD first dflt).text.take (s - runPos runs first) ++ v } ∧
          runs'[rest.getLastD first]? = some { runs.getD (rest.getLastD first) dflt with
            text := List.drop (s + k.length - runPos runs (rest.getLastD first)) (runs.getD (rest.getLastD first) dflt).text } ∧
          (∀ j ∈ rest, j ≠ rest.getLastD first →
            runs'[j]? = some { runs.getD j dflt with text := ([] : Text) }))) := by
  have hkl : 0 < k.length := List.length_pos.mpr hk
  have h1 : s < s + k.length := by omega
  have h2 : s + k.length ≤ (textOf runs).length := strFind_some_bound hs
  refine ⟨_, replaceOnce_head_found v [] hk hs, spliceRuns_length _ _ _ _,
    spliceRuns_map_fmt _ _ _ _, spliceRuns_textOf v h1 h2,
    fun j hj => spliceRuns_frame hj, ?_⟩
  intro first rest heq
  obtain ⟨hfirst_lt, hrest⟩ := affected_cons_facts h1 h2 heq
  constructor
  · intro hrest_nil
    subst hrest_nil
    rw [spliceRuns_getElem?_eq heq first, getElem?_eq_getD hfirst_lt]
    rw [Option.map_some', List.getLastD_nil, if_pos rfl, if_pos rfl]
  · intro hrest_ne
    rcases hrest with hnil | ⟨hlast_lt, hfl, hlast_mem, hbound⟩
    · exact absurd hnil hrest_ne
    refine ⟨?_, ?_, ?_⟩
    · rw [spliceRuns_getElem?_eq heq first, getElem?_eq_getD hfirst_lt]
      have hne : first ≠ rest.getLastD first := by omega
      rw [Option.map_some', if_pos rfl, if_neg hne]
    · rw [spliceRuns_getElem?_eq heq (rest.getLastD first), getElem?_eq_getD hlast_lt]
      have hne : rest.getLastD first ≠ first := by omega
      rw [Option.map_some', if_neg hne, if_pos rfl]
    · intro j hj hjne
      obtain ⟨hj1, hj2⟩ := hbound j hj
      have hj_lt : j < runs.length := by omega
      rw [spliceRuns_getElem?_eq heq j, getElem?_eq_getD hj_lt]
      have hjf : j ≠ first := by omega
      rw [Option.map_some', if_neg hjf, if_neg hjne,
        if_pos (List.mem_cons_of_mem first hj)]

/-- Witness for C2 at the specification's own cross-fragment example:
fragments `Hello [[`, `NAME`, `]] world` with key `[[NAME]]`: after one
pass the concatenation is `Hello <value> world`, the fragment count is
still 3 and the formatting payloads are untouched. -/
theorem c2_witness :
    ∃ runs', replaceOnce
        [⟨("Hello [[").toList, 1⟩, ⟨("NAME").toList, 2⟩, ⟨("]] world").toList, 3⟩]
        [(("[[NAME]]").toList, ("<value>").toList)] = some runs' ∧
      textOf runs' = ("Hello <value> world").toList ∧
      runs'.length = 3 ∧
      runs'.map Run.fmt = [1, 2, 3] := by
  obtain ⟨r', hrepl, hlen, hfmt, htext, -, -⟩ := c2_span_rewrite
    [⟨("Hello [[").toList, 1⟩, ⟨("NAME").toList, 2⟩, ⟨("]] world").toList, 3⟩]
    (("[[NAME]]").toList) (("<value>").toList) 6 (by decide) (by decide)
  refine ⟨r', hrepl, ?_, ?_, ?_⟩
  · rw [htext]
    decide
  · rw [hlen]
    decide
  · rw [hfmt]
    decide

/-- Claim C3, counterexample: with the empty string as a configured key,
`replaceAll` returns with the tree unchanged and the empty key still
occurs (at offset 0) in the concatenated text of a reachable paragraph, so
"no configured token key occurs ... after the call" fails as stated. -/
theorem c3_counterexample :
    replaceDoc 5 [(([] : Text), ("x").toList)] ⟨.mk [[⟨("ab").toList, 0⟩]] [], []⟩ =
      ⟨.mk [[⟨("ab").toList, 0⟩]] [], []⟩ ∧
    ∃ p ∈ docParas (replaceDoc 5 [(([] : Text), ("x").toList)]
        ⟨.mk [[⟨("ab").toList, 0⟩]] [], []⟩),
      ∃ kv ∈ [(([] : Text), ("x").toList)], containsSub (textOf p) kv.1 = true :=
  ⟨rfl, by decide⟩

/-- Claim C3 (amended): `replaceAll` processes every reachable paragraph -
recursing through every table, row and cell, and at the document root also
every section's header and footer container - applying the per-paragraph
fixed-point loop to each; and every reachable paragraph whose loop reached
its fixed point contains no occurrence of any nonempty configured key (an
empty-string key is never replaced and always remains; a loop that has not
reached a fixed point within the re-scan budget may also leave keys). -/
theorem c3_walker_reach (fuel : Nat) (ps : TMap) (d : Document) :
    docParas (replaceDoc fuel ps d) = (docParas d).map (fun p => replaceLoop fuel p ps) ∧
    ∀ p ∈ docParas (replaceDoc fuel ps d), replaceOnce p ps = none →
      ∀ kv ∈ ps, kv.1 ≠ [] → containsSub (textOf p) kv.1 = false :=
  ⟨docParas_repl fuel ps d,
   fun p _ hfix kv hkv hne => replaceOnce_none_not_contained hfix kv hkv hne⟩

/-- Witness for C3 at the specification's recursive-reach example: a table
nested inside a cell of another table with a token in the innermost cell's
paragraph, plus tokens in the header and the footer; one `replaceAll` call
replaces all three occurrences and no token remains. -/
theorem c3_witness :
    docParas (replaceDoc 2 exMapNested exDocNested) =
      (docParas exDocNested).map (fun p => replaceLoop 2 p exMapNested) ∧
    (∀ p ∈ docParas (replaceDoc 2 exMapNested exDocNested),
      replaceOnce p exMapNested = none) ∧
    (∀ p ∈ docParas (replaceDoc 2 exMapNested exDocNested),
      ∀ kv ∈ exMapNested, containsSub (textOf p) kv.1 = false) ∧
    docParas (replaceDoc 2 exMapNested exDocNested) =
      [[⟨("w1").toList, 0⟩], [⟨("hw").toList, 1⟩], [⟨("wf").toList, 2⟩]] :=
  ⟨(c3_walker_reach 2 exMapNested exDocNested).1, by decide, by decide, by decide⟩

/-- Claim C4, counterexample: the paragraph `XAB YB` with the map
`XA -> Y, YB -> z` contains exactly one occurrence of each key,
non-overlapping, and neither value contains a key; yet replacing `XA` by
`Y` creates a second `YB` at the splice seam, so the loop performs 3
successful replacements and the 3rd call does not return false. -/
theorem c4_counterexample :
    countOcc (("XAB YB").toList) (("XA").toList) = 1 ∧
    countOcc (("XAB YB").toList) (("YB").toList) = 1 ∧
    strFind (("XAB YB").toList) (("XA").toList) = some 0 ∧
    strFind (("XAB YB").toList) (("YB").toList) = some 4 ∧
    containsSub (("Y").toList) (("XA").toList) = false ∧
    containsSub (("Y").toList) (("YB").toList) = false ∧
    containsSub (("z").toList) (("XA").toList) = false ∧
    containsSub (("z").toList) (("YB").toList) = false ∧
    replaceOnce [⟨("XAB YB").toList, 0⟩]
        [(("XA").toList, ("Y").toList), (("YB").toList, ("z").toList)] =
      some [⟨("YB YB").toList, 0⟩] ∧
    replaceOnce [⟨("YB YB").toList, 0⟩]
        [(("XA").toList, ("Y").toList), (("YB").toList, ("z").toList)] =
      some [⟨("z YB").toList, 0⟩] ∧
    replaceOnce [⟨("z YB").toList, 0⟩]
        [(("XA").toList, ("Y").toList), (("YB").toList, ("z").toList)] =
      some [⟨("z z").toList, 0⟩] := by
  decide

/-- Claim C4 (amended): for a paragraph whose map holds the two nonempty
keys `kA` and `kB`, if some key occurs initially, exactly one token
occurrence is still present after the first replacement, and none is
present after the second (i.e. no replacement introduces a new occurrence
at a splice seam), then the loop performs exactly 2 successful
replacements: the 3rd call returns false and the loop result is the text
after the second replacement. -/
theorem c4_two_token_fixed_point (runs : List Run) (kA vA kB vB : Text)
    (hA : kA ≠ []) (hB : kB ≠ [])
    (h0 : containsSub (textOf runs) kA = true ∨ containsSub (textOf runs) kB = true)
    (h1 : ∀ r1, replaceOnce runs [(kA, vA), (kB, vB)] = some r1 →
      containsSub (textOf r1) kA = true ∨ containsSub (textOf r1) kB = true)
    (h2 : ∀ r1 r2, replaceOnce runs [(kA, vA), (kB, vB)] = some r1 →
      replaceOnce r1 [(kA, vA), (kB, vB)] = some r2 →
      containsSub (textOf r2) kA = false ∧ containsSub (textOf r2) kB = false) :
    ∃ r1 r2, replaceOnce runs [(kA, vA), (kB, vB)] = some r1 ∧
      replaceOnce r1 [(kA, vA), (kB, vB)] = some r2 ∧
      replaceOnce r2 [(kA, vA), (kB, vB)] = none ∧
      ∀ fuel, replaceLoop (fuel + 3) runs [(kA, vA), (kB, vB)] = r2 := by
  have hsome0 : (replaceOnce runs [(kA, vA), (kB, vB)]).isSome = true := by
    apply replaceOnce_isSome
    rcases h0 with h | h
    · exact ⟨(kA, vA), by simp, hA, h⟩
    · exact ⟨(kB, vB), by simp, hB, h⟩
  obtain ⟨r1, e1⟩ := Option.isSome_iff_exists.mp hsome0
  have hsome1 : (replaceOnce r1 [(kA, vA), (kB, vB)]).isSome = true := by
    apply replaceOnce_isSome
    rcases h1 r1 e1 with h | h
    · exact ⟨(kA, vA), by simp, hA, h⟩
    · exact ⟨(kB, vB), by simp, hB, h⟩
  obtain ⟨r2, e2⟩ := Option.isSome_iff_exists.mp hsome1
  obtain ⟨hA2, hB2⟩ := h2 r1 r2 e1 e2
  have e3 : replaceOnce r2 [(kA, vA), (kB, vB)] = none := by
    apply replaceOnce_none_of_not_contained
    intro kv hkv
    rcases (by simpa using hkv : kv = (kA, vA) ∨ kv = (kB, vB)) with rfl | rfl
    · exact hA2
    · exact hB2
  refine ⟨r1, r2, e1, e2, e3, fun fuel => ?_⟩
  calc replaceLoop (fuel + 3) runs [(kA, vA), (kB, vB)]
      = replaceLoop (fuel + 2) r1 [(kA, vA), (kB, vB)] := replaceLoop_of_some e1 (fuel + 2)
    _ = replaceLoop (fuel + 1) r2 [(kA, vA), (kB, vB)] := replaceLoop_of_some e2 (fuel + 1)
    _ = r2 := replaceLoop_of_none e3 (fuel + 1)

/-- Witness for the amended C4: the paragraph `x ab y cd z` with the map
`ab -> 1, cd -> 2` satisfies the no-seam-occurrence hypotheses and the
loop stops after exactly two successful replacements. -/
theorem c4_witness :
    ∃ r1 r2, replaceOnce [⟨("x ab y cd z").toList, 0⟩]
        [(("ab").toList, ("1").toList), (("cd").toList, ("2").toList)] = some r1 ∧
      replaceOnce r1 [(("ab").toList, ("1").toList), (("cd").toList, ("2").toList)] = some r2 ∧
      replaceOnce r2 [(("ab").toList, ("1").toList), (("cd").toList, ("2").toList)] = none ∧
      ∀ fuel, replaceLoop (fuel + 3) [⟨("x ab y cd z").toList, 0⟩]
        [(("ab").toList, ("1").toList), (("cd").toList, ("2").toList)] = r2 :=
  c4_two_token_fixed_point [⟨("x ab y cd z").toList, 0⟩]
    (("ab").toList) (("1").toList) (("cd").toList) (("2").toList)
    (by decide) (by decide) (Or.inl (by decide))
    (fun r1 h => by
      rw [show replaceOnce [⟨("x ab y cd z").toList, 0⟩]
          [(("ab").toList, ("1").toList), (("cd").toList, ("2").toList)] =
          some [⟨("x 1 y cd z").toList, 0⟩] from by decide] at h
      injection h with h'
      subst h'
      right
      decide)
    (fun r1 r2 ha hb => by
      rw [show replaceOnce [⟨("x ab y cd z").toList, 0⟩]
          [(("ab").toList, ("1").toList), (("cd").toList, ("2").toList)] =
          some [⟨("x 1 y cd z").toList, 0⟩] from by decide] at ha
      injection ha with ha'
      subst ha'
      rw [show replaceOnce [⟨("x 1 y cd z").toList, 0⟩]
          [(("ab").toList, ("1").toList), (("cd").toList, ("2").toList)] =
          some [⟨("x 1 y 2 z").toList, 0⟩] from by decide] at hb
      injection hb with hb'
      subst hb'
      exact ⟨by decide, by decide⟩)

/-- Claim C5: at a scan pass, the token replaced is the first key in map
order that occurs at all (here: the key at map index `i`, all earlier keys
not occurring), its first occurrence is substituted in the concatenation,
and the loop then restarts the scan from the start of the re-concatenated
text (the next iteration is the same full re-scan on the new run list). -/
theorem c5_map_priority_rescan (runs : List Run) (ps : TMap) (i : Nat) (k v : Text)
    (hget : ps[i]? = some (k, v)) (hk : k ≠ [])
    (hocc : containsSub (textOf runs) k = true)
    (hprev : ∀ j, j < i → containsSub (textOf runs) ((ps[j]?.getD ([], [])).1) = false) :
    ∃ s runs', strFind (textOf runs) k = some s ∧
      replaceOnce runs ps = some runs' ∧
      textOf runs' = (textOf runs).take s ++ v ++ (textOf runs).drop (s + k.length) ∧
      ∀ fuel, replaceLoop (fuel + 1) runs ps = replaceLoop fuel runs' ps := by
  obtain ⟨s, hs, hrepl⟩ := replaceOnce_select hget hk hocc (fun j hj kv hkv => by
    have hh := hprev j hj
    rw [hkv] at hh
    simpa using hh)
  refine ⟨s, _, hs, hrepl, spliceRuns_textOf v ?_ (strFind_some_bound hs),
    fun fuel => replaceLoop_of_some hrepl fuel⟩
  have := List.length_pos.mpr hk
  omega

/-- Witness for C5: in `cc B A` with the map `A -> !, B -> ?`, both keys
occur but `A` is first in map order, so `A` is the one replaced. -/
theorem c5_witness :
    ∃ s runs', strFind (textOf [⟨("cc B A").toList, 4⟩]) (("A").toList) = some s ∧
      replaceOnce [⟨("cc B A").toList, 4⟩]
          [(("A").toList, ("!").toList), (("B").toList, ("?").toList)] = some runs' ∧
      textOf runs' = (textOf [⟨("cc B A").toList, 4⟩]).take s ++ ("!").toList ++
        (textOf [⟨("cc B A").toList, 4⟩]).drop (s + (("A").toList).length) ∧
      ∀ fuel, replaceLoop (fuel + 1) [⟨("cc B A").toList, 4⟩]
          [(("A").toList, ("!").toList), (("B").toList, ("?").toList)] =
        replaceLoop fuel runs' [(("A").toList, ("!").toList), (("B").toList, ("?").toList)] :=
  c5_map_priority_rescan [⟨("cc B A").toList, 4⟩]
    [(("A").toList, ("!").toList), (("B").toList, ("?").toList)] 0
    (("A").toList) (("!").toList) (by decide) (by decide) (by decide) (by decide)

/-- Claim C6: the engine only mutates fragment text: the walker never
changes the container/table/row/cell structure, fragment counts, fragment
order or formatting payloads (the text-free skeleton is preserved), and a
single successful replacement likewise preserves everything except texts:
the blank-text image, the length and the formatting list of the run
sequence are unchanged. -/
theorem c6_only_text_mutation (fuel : Nat) (ps : TMap) (d : Document) :
    skelDoc (replaceDoc fuel ps d) = skelDoc d ∧
    ∀ runs r', replaceOnce runs ps = some r' →
      eraseRuns r' = eraseRuns runs ∧ r'.length = runs.length ∧
      r'.map Run.fmt = runs.map Run.fmt := by
  refine ⟨skelDoc_repl fuel ps d, fun runs r' h => ?_⟩
  obtain ⟨s, e, v, rfl⟩ := replaceOnceGo_some_splice h
  exact ⟨spliceRuns_eraseRuns _ _ _ _, spliceRuns_length _ _ _ _, spliceRuns_map_fmt _ _ _ _⟩

/-- Witness for C6: a concrete document and a concrete replacement, with
the frame facts evaluated. -/
theorem c6_witness :
    skelDoc (replaceDoc 2 exMapAB exDocBody) = skelDoc exDocBody ∧
    eraseRuns [⟨("qBr").toList, 5⟩] = eraseRuns [⟨("qAr").toList, 5⟩] ∧
    ([⟨("qBr").toList, 5⟩] : List Run).map Run.fmt =
      ([⟨("qAr").toList, 5⟩] : List Run).map Run.fmt :=
  ⟨(c6_only_text_mutation 2 exMapAB exDocBody).1,
   ((c6_only_text_mutation 2 exMapAB exDocBody).2
     [⟨("qAr").toList, 5⟩] [⟨("qBr").toList, 5⟩] (by decide)).1,
   ((c6_only_text_mutation 2 exMapAB exDocBody).2
     [⟨("qAr").toList, 5⟩] [⟨("qBr").toList, 5⟩] (by decide)).2.2⟩

/-- Claim C7: when no configured key occurs in the concatenated fragment
text of a paragraph, the replacement pass returns false and the loop
leaves every fragment unchanged. -/
theorem c7_no_token_no_change (runs : List Run) (ps : TMap)
    (h : ∀ kv ∈ ps, containsSub (textOf runs) kv.1 = false) :
    replaceOnce runs ps = none ∧ ∀ fuel, replaceLoop fuel runs ps = runs := by
  have h0 := replaceOnce_none_of_not_contained h
  exact ⟨h0, fun fuel => replaceLoop_of_none h0 fuel⟩

/-- Witness for C7: the paragraph `hello` with the map `x -> y`. -/
theorem c7_witness :
    (∀ kv ∈ [(("x").toList, ("y").toList)],
      containsSub (textOf [⟨("hello").toList, 3⟩]) kv.1 = false) ∧
    replaceOnce [⟨("hello").toList, 3⟩] [(("x").toList, ("y").toList)] = none ∧
    replaceLoop 5 [⟨("hello").toList, 3⟩] [(("x").toList, ("y").toList)] =
      [⟨("hello").toList, 3⟩] :=
  ⟨by decide,
   (c7_no_token_no_change [⟨("hello").toList, 3⟩] [(("x").toList, ("y").toList)] (by decide)).1,
   (c7_no_token_no_change [⟨("hello").toList, 3⟩] [(("x").toList, ("y").toList)] (by decide)).2 5⟩

/-- Claim C8: when the first `replaceAll` call brings every reachable
paragraph to its fixed point (which is exactly the situation in which the
source's unbounded loop returns), a second call with the same map changes
nothing: the tree after the second call is the tree after the first. -/
theorem c8_second_call_noop (d : Document) (ps : TMap) (fuel fuel2 : Nat)
    (h : ∀ p ∈ docParas (replaceDoc fuel ps d), replaceOnce p ps = none) :
    replaceDoc fuel2 ps (replaceDoc fuel ps d) = replaceDoc fuel ps d :=
  replaceDoc_fixpoint fuel2 ps _ h

/-- Witness for C8: a concrete document where the first call reaches the
fixed point and a second call (with different fuel) is the identity. -/
theorem c8_witness :
    (∀ p ∈ docParas (replaceDoc 2 exMapAB exDocBody), replaceOnce p exMapAB = none) ∧
    replaceDoc 7 exMapAB (replaceDoc 2 exMapAB exDocBody) = replaceDoc 2 exMapAB exDocBody :=
  ⟨by decide, c8_second_call_noop exDocBody exMapAB 2 7 (by decide)⟩

/-- Claim C9: the loop replaces every occurrence of every token before it
can stop, including occurrences introduced by earlier replacements: (a)
when the loop has reached its fixed point, no nonempty configured key
occurs in the final text; (b) whenever some nonempty configured key occurs
in the current text - whether original or created by a replacement - the
next `replaceOnce` call finds and replaces an occurrence. -/
theorem c9_eventually_all_replaced (runs : List Run) (ps : TMap) (fuel : Nat) :
    ((replaceOnce (replaceLoop fuel runs ps) ps = none) →
      ∀ kv ∈ ps, kv.1 ≠ [] → containsSub (textOf (replaceLoop fuel runs ps)) kv.1 = false) ∧
    (∀ runs' : List Run, (∃ kv ∈ ps, kv.1 ≠ [] ∧ containsSub (textOf runs') kv.1 = true) →
      (replaceOnce runs' ps).isSome = true) :=
  ⟨fun hfix => replaceOnce_none_not_contained hfix,
   fun _ hex => replaceOnce_isSome hex⟩

/-- Witness for C9: the map `A -> B, B -> x` (the value of `A` introduces
an occurrence of the key `B`); starting from `uAv` the loop reaches `uxv`,
the created occurrence of `B` having been replaced too. -/
theorem c9_witness :
    replaceOnce (replaceLoop 3 [⟨("uAv").toList, 0⟩]
        [(("A").toList, ("B").toList), (("B").toList, ("x").toList)])
      [(("A").toList, ("B").toList), (("B").toList, ("x").toList)] = none ∧
    (∀ kv ∈ [(("A").toList, ("B").toList), (("B").toList, ("x").toList)], kv.1 ≠ [] →
      containsSub (textOf (replaceLoop 3 [⟨("uAv").toList, 0⟩]
        [(("A").toList, ("B").toList), (("B").toList, ("x").toList)])) kv.1 = false) ∧
    (replaceOnce [⟨("B").toList, 0⟩]
      [(("A").toList, ("B").toList), (("B").toList, ("x").toList)]).isSome = true :=
  ⟨by decide,
   (c9_eventually_all_replaced [⟨("uAv").toList, 0⟩]
     [(("A").toList, ("B").toList), (("B").toList, ("x").toList)] 3).1 (by decide),
   (c9_eventually_all_replaced [⟨("uAv").toList, 0⟩]
     [(("A").toList, ("B").toList), (("B").toList, ("x").toList)] 3).2
     [⟨("B").toList, 0⟩] (by decide)⟩

/-- Claim C10: an empty-string key never causes a modification and never
breaks the scan: the empty string is found at offset 0 in every text, its
occurrence range `[0, 0)` overlaps no fragment (the affected set is
empty), the key is skipped - a pass behaves exactly as if the empty key
were absent from the map - and hence the loop behaves identically with and
without the empty key, terminating whenever the remaining keys reach a
fixed point. -/
theorem c10_empty_key_skipped :
    (∀ t : Text, strFind t [] = some 0) ∧
    (∀ runs : List Run, affectedIdx runs 0 0 = []) ∧
    (∀ (runs : List Run) (v : Text) (ps1 ps2 : TMap),
      replaceOnce runs (ps1 ++ ([], v) :: ps2) = replaceOnce runs (ps1 ++ ps2)) ∧
    (∀ (fuel : Nat) (runs : List Run) (v : Text) (ps1 ps2 : TMap),
      replaceLoop fuel runs (ps1 ++ ([], v) :: ps2) = replaceLoop fuel runs (ps1 ++ ps2)) :=
  ⟨strFind_empty_pat, affectedIdx_zero_zero,
   fun runs v ps1 ps2 => replaceOnce_empty_key_congr runs v ps1 ps2,
   fun fuel runs v ps1 ps2 => replaceLoop_empty_key_congr fuel runs v ps1 ps2⟩

end AgreemDir
